import Mathlib

/-!
Shallow embedding of `gguf_read.py`: a GGUF metadata extractor consisting of
a primitive string reader `rs`, a recursive value skipper `sv`, and a
module-level walker loop that collects selected string-valued metadata
entries.  The byte stream is modelled as a `List Nat` of remaining bytes;
Python's `f.read(n)` (which silently returns fewer bytes at end of stream)
is `List.take` / `List.drop`, while `struct.unpack` (which raises when the
buffer is short) is modelled as an `Option`-valued read.
-/

namespace GgufRead

/-- Little-endian value of a byte list (least significant byte first),
as `struct.unpack` computes it for the bytes handed to it. -/
def leVal : List Nat → Nat
  | [] => 0
  | b :: r => b % 256 + 256 * leVal r

/-- Models `struct.unpack('<Q', f.read(8))`: Python's `f.read(8)` returns
`min 8 len` bytes and `struct.unpack` raises unless exactly 8 arrive, so the
read fails iff fewer than 8 bytes remain. -/
def readU64 (s : List Nat) : Option (Nat × List Nat) :=
  if 8 ≤ s.length then some (leVal (s.take 8), s.drop 8) else none

/-- Models `struct.unpack('<I', f.read(4))`: fails iff fewer than 4 bytes
remain. -/
def readU32 (s : List Nat) : Option (Nat × List Nat) :=
  if 4 ≤ s.length then some (leVal (s.take 4), s.drop 4) else none

/-- Second and later continuation bytes of a UTF-8 sequence: `0x80..0xBF`. -/
def contB (b : Nat) : Bool := 0x80 ≤ b && b ≤ 0xBF

/-- Lower bound for the first continuation byte after a 3-byte lead. -/
def cont3Lo (b : Nat) : Nat := if b = 0xE0 then 0xA0 else 0x80

/-- Upper bound for the first continuation byte after a 3-byte lead. -/
def cont3Hi (b : Nat) : Nat := if b = 0xED then 0x9F else 0xBF

/-- Lower bound for the first continuation byte after a 4-byte lead. -/
def cont4Lo (b : Nat) : Nat := if b = 0xF0 then 0x90 else 0x80

/-- Upper bound for the first continuation byte after a 4-byte lead. -/
def cont4Hi (b : Nat) : Nat := if b = 0xF4 then 0x8F else 0xBF

/-- Fuel-indexed UTF-8 decoding loop: every recursive call consumes at
least one byte of the input, so fuel equal to the input length never runs
out; the fuel only makes the recursion structural (and so computable by the
kernel). -/
def utf8Go : Nat → List Nat → List Nat
  | 0, _ => []
  | _ + 1, [] => []
  | fuel + 1, b :: r =>
    if b < 0x80 then b :: utf8Go fuel r
    else if 0xC2 ≤ b && b ≤ 0xDF then
      match r with
      | [] => [0xFFFD]
      | c :: r2 =>
        if contB c then ((b - 0xC0) * 64 + (c - 0x80)) :: utf8Go fuel r2
        else 0xFFFD :: utf8Go fuel (c :: r2)
    else if 0xE0 ≤ b && b ≤ 0xEF then
      match r with
      | [] => [0xFFFD]
      | c :: r2 =>
        if cont3Lo b ≤ c && c ≤ cont3Hi b then
          match r2 with
          | [] => [0xFFFD]
          | d :: r3 =>
            if contB d then
              ((b - 0xE0) * 4096 + (c - 0x80) * 64 + (d - 0x80)) :: utf8Go fuel r3
            else 0xFFFD :: utf8Go fuel (d :: r3)
        else 0xFFFD :: utf8Go fuel (c :: r2)
    else if 0xF0 ≤ b && b ≤ 0xF4 then
      match r with
      | [] => [0xFFFD]
      | c :: r2 =>
        if cont4Lo b ≤ c && c ≤ cont4Hi b then
          match r2 with
          | [] => [0xFFFD]
          | d :: r3 =>
            if contB d then
              match r3 with
              | [] => [0xFFFD]
              | e :: r4 =>
                if contB e then
                  ((b - 0xF0) * 262144 + (c - 0x80) * 4096 + (d - 0x80) * 64 + (e - 0x80)) ::
                    utf8Go fuel r4
                else 0xFFFD :: utf8Go fuel (e :: r4)
            else 0xFFFD :: utf8Go fuel (d :: r3)
        else 0xFFFD :: utf8Go fuel (c :: r2)
    else 0xFFFD :: utf8Go fuel r

/-- Models Python's `bytes.decode('utf-8', 'replace')`: a total UTF-8
decoder producing the list of code points, replacing each maximal ill-formed
subpart with U+FFFD (the behaviour of CPython's `replace` error handler).
It never fails, whatever the input bytes. -/
def utf8DecodeReplace (l : List Nat) : List Nat := utf8Go l.length l


/-- Models `rs(f)`: read an 8-byte little-endian length `l` (via
`struct.unpack`, which can fail), then `f.read(l)` — which silently returns
fewer than `l` bytes when the stream is short — decoded lossily. -/
def rs (s : List Nat) : Option (List Nat × List Nat) :=
  match readU64 s with
  | none => none
  | some (l, s1) => some (utf8DecodeReplace (s1.take l), s1.drop l)

/-- The `sizes` dictionary of `sv`: fixed byte widths per type tag;
`none` models absence of the key from the dictionary. -/
def sizes (t : Nat) : Option Nat :=
  match t with
  | 0 => some 1
  | 1 => some 1
  | 2 => some 2
  | 3 => some 2
  | 4 => some 4
  | 5 => some 4
  | 6 => some 4
  | 7 => some 1
  | 9 => some 8
  | 10 => some 8
  | 11 => some 8
  | _ => none

mutual

/-- Models `sv(f, t)`: skip one value of tag `t`.  Tag 8 reads an 8-byte
length (fallible unpack) and then `f.read(l)` (never fails); tag 12 reads a
4-byte element tag and an 8-byte count, then skips that many elements
recursively; a tag in `sizes` does a plain `f.read` of the fixed width
(never fails); any other tag falls through all branches, consuming nothing.
The result carries the proof that the stream never grows, which justifies
termination of the nested recursion. -/
def svAux (t : Nat) (s : List Nat) : Option { r : List Nat // r.length ≤ s.length } :=
  if t = 8 then
    if 8 ≤ s.length then
      some ⟨(s.drop 8).drop (leVal (s.take 8)), by
        simp only [List.length_drop]; omega⟩
    else none
  else if t = 12 then
    if h4 : 4 ≤ s.length then
      if h8 : 8 ≤ (s.drop 4).length then
        match svAuxN (leVal (s.take 4)) (leVal ((s.drop 4).take 8)) ((s.drop 4).drop 8) with
        | none => none
        | some ⟨r, hr⟩ => some ⟨r, by
            simp only [List.length_drop] at hr ⊢; omega⟩
      else none
    else none
  else
    match sizes t with
    | some w => some ⟨s.drop w, by simp only [List.length_drop]; omega⟩
    | none => some ⟨s, le_refl _⟩
termination_by (s.length, 0)
decreasing_by
  simp_wf
  apply Prod.Lex.left
  simp only [List.length_drop] at h8 ⊢
  omega

/-- The `for _ in range(n): sv(f, at)` loop of the array branch of `sv`:
`n` sequential recursive skips of tag `et`. -/
def svAuxN (et n : Nat) (s : List Nat) : Option { r : List Nat // r.length ≤ s.length } :=
  match n with
  | 0 => some ⟨s, le_refl _⟩
  | Nat.succ m =>
    match svAux et s with
    | none => none
    | some ⟨s1, h1⟩ =>
      match svAuxN et m s1 with
      | none => none
      | some ⟨r, hr⟩ => some ⟨r, le_trans hr h1⟩
termination_by (s.length, n + 1)
decreasing_by
  · simp_wf
    apply Prod.Lex.right
    omega
  · simp_wf
    rcases Nat.lt_or_ge s1.length s.length with h | h
    · exact Prod.Lex.left _ _ h
    · have he : s1.length = s.length := le_antisymm h1 h
      rw [he]
      apply Prod.Lex.right
      omega

end

/-- The value skipper with the termination bookkeeping erased: this is the
function the claims speak about. -/
def sv (t : Nat) (s : List Nat) : Option (List Nat) :=
  Option.map Subtype.val (svAux t s)

/-- Iterating `sv` with a fixed element tag `n` times, threading the
stream: the observable behaviour of the array branch's loop. -/
def svIter (et : Nat) : Nat → List Nat → Option (List Nat)
  | 0, s => some s
  | Nat.succ m, s =>
    match sv et s with
    | none => none
    | some s1 => svIter et m s1

/-- Code points of an ASCII Lean string literal, used to write the fixed
marker substrings of the walker. -/
def ascii (s : String) : List Nat := s.toList.map Char.toNat

/-- Decides whether `p` is an initial segment of `l` (helper for Python's
substring operator `in`). -/
def isPre : List Nat → List Nat → Bool
  | [], _ => true
  | _ :: _, [] => false
  | a :: p, b :: l => a == b && isPre p l

/-- Python's `needle in hay` substring test on code-point sequences. -/
def hasSub (needle hay : List Nat) : Bool :=
  match hay with
  | [] => needle.isEmpty
  | _ :: t => isPre needle hay || hasSub needle t

/-- The walker's selection predicate:
`'chat_template' in k or 'tokenizer.ggml.model' in k`. -/
def pred (k : List Nat) : Bool :=
  hasSub (ascii "chat_template") k || hasSub (ascii "tokenizer.ggml.model") k

/-- The block appended for a captured entry: `'[' + k + ']\n' + v`
(code points 91 = `[`, 93 = `]`, 10 = newline). -/
def block (k v : List Nat) : List Nat := [91] ++ k ++ [93, 10] ++ v

/-- The `for _ in range(nk)` loop of the walker: for each entry read the key
via `rs`, read a 4-byte tag; on tag 8 read the string value inline
(8-byte length via fallible unpack, then a plain read of that many bytes)
and append a block when the key matches; otherwise call `sv`.  The
accumulator models the `result` list. -/
def walkEntries : Nat → List Nat → List (List Nat) → Option (List (List Nat) × List Nat)
  | 0, s, acc => some (acc, s)
  | Nat.succ m, s, acc =>
    match rs s with
    | none => none
    | some (k, s1) =>
      match readU32 s1 with
      | none => none
      | some (t, s2) =>
        if t = 8 then
          match readU64 s2 with
          | none => none
          | some (l, s3) =>
            if pred k then
              walkEntries m (s3.drop l) (acc ++ [block k (utf8DecodeReplace (s3.take l))])
            else
              walkEntries m (s3.drop l) acc
        else
          match sv t s2 with
          | none => none
          | some s3 => walkEntries m s3 acc

/-- The module-level walker: `f.read(4); f.read(4)` (plain reads, never
fail), one discarded 8-byte count, the 8-byte entry count `nk`, then the
entry loop starting from an empty `result`.  Returns the accumulated
blocks and the unread remainder of the stream; `none` models an uncaught
`struct.error` aborting the script before any output is written. -/
def walker (s : List Nat) : Option (List (List Nat) × List Nat) :=
  match readU64 ((s.drop 4).drop 4) with
  | none => none
  | some (_, s2) =>
    match readU64 s2 with
    | none => none
    | some (nk, s3) => walkEntries nk s3 []

/-- Little-endian encoding of `v` into `w` bytes (for building concrete
input streams in the theorems). -/
def leBytes : Nat → Nat → List Nat
  | 0, _ => []
  | Nat.succ w, v => v % 256 :: leBytes w (v / 256)

/-- The 8-byte little-endian encoding used for lengths and counts. -/
def u64bytes (v : Nat) : List Nat := leBytes 8 v

/-- The 4-byte little-endian encoding used for type tags. -/
def u32bytes (v : Nat) : List Nat := leBytes 4 v

theorem leBytes_length (w v : Nat) : (leBytes w v).length = w := by
  induction w generalizing v with
  | zero => rfl
  | succ w ih => simp [leBytes, ih]

theorem leVal_leBytes (w v : Nat) : leVal (leBytes w v) = v % 2 ^ (8 * w) := by
  induction w generalizing v with
  | zero => simp [leBytes, leVal, Nat.mod_one]
  | succ w ih =>
    have h2 : (2 : Nat) ^ (8 * (w + 1)) = 256 * 2 ^ (8 * w) := by ring
    rw [leBytes, leVal, ih, h2, Nat.mod_mul, Nat.mod_mod_of_dvd v (dvd_refl 256)]

theorem readU64_enc (v : Nat) (hv : v < 2 ^ 64) (r : List Nat) :
    readU64 (u64bytes v ++ r) = some (v, r) := by
  have hl : (u64bytes v).length = 8 := leBytes_length 8 v
  have ht : (u64bytes v ++ r).take 8 = u64bytes v := by
    rw [← hl]; exact List.take_left _ _
  have hd : (u64bytes v ++ r).drop 8 = r := by
    rw [← hl]; exact List.drop_left _ _
  have hlen : 8 ≤ (u64bytes v ++ r).length := by
    simp [List.length_append, hl]
  rw [readU64, if_pos hlen, ht, hd]
  have : leVal (u64bytes v) = v := by
    rw [u64bytes, leVal_leBytes]
    exact Nat.mod_eq_of_lt hv
  rw [this]

theorem readU32_enc (v : Nat) (hv : v < 2 ^ 32) (r : List Nat) :
    readU32 (u32bytes v ++ r) = some (v, r) := by
  have hl : (u32bytes v).length = 4 := leBytes_length 4 v
  have ht : (u32bytes v ++ r).take 4 = u32bytes v := by
    rw [← hl]; exact List.take_left _ _
  have hd : (u32bytes v ++ r).drop 4 = r := by
    rw [← hl]; exact List.drop_left _ _
  have hlen : 4 ≤ (u32bytes v ++ r).length := by
    simp [List.length_append, hl]
  rw [readU32, if_pos hlen, ht, hd]
  have : leVal (u32bytes v) = v := by
    rw [u32bytes, leVal_leBytes]
    exact Nat.mod_eq_of_lt hv
  rw [this]

theorem svAuxN_iter (et n : Nat) (s : List Nat) :
    Option.map Subtype.val (svAuxN et n s) = svIter et n s := by
  induction n generalizing s with
  | zero => simp [svAuxN, svIter]
  | succ m ih =>
    rw [svAuxN, svIter]
    cases h : svAux et s with
    | none => simp [sv, h]
    | some p =>
      obtain ⟨s1, h1⟩ := p
      simp only [sv, h, Option.map_some]
      cases hq : svAuxN et m s1 with
      | none =>
        have := ih s1
        rw [hq] at this
        simp [← this]
      | some q =>
        obtain ⟨r, hr⟩ := q
        have := ih s1
        rw [hq] at this
        simp [← this]

theorem sv_len {t : Nat} {s r : List Nat} (h : sv t s = some r) : r.length ≤ s.length := by
  rw [sv] at h
  cases hq : svAux t s with
  | none => rw [hq] at h; simp at h
  | some p =>
    rw [hq] at h
    simp at h
    exact h ▸ p.property

theorem sv_str (s : List Nat) :
    sv 8 s = if 8 ≤ s.length then some ((s.drop 8).drop (leVal (s.take 8))) else none := by
  rw [sv, svAux]
  by_cases h : 8 ≤ s.length
  · simp [h]
  · simp [h]

theorem sv_arr (s : List Nat) :
    sv 12 s =
      if 12 ≤ s.length then
        svIter (leVal (s.take 4)) (leVal ((s.drop 4).take 8)) ((s.drop 4).drop 8)
      else none := by
  rw [sv, svAux]
  have h12 : ¬((12 : Nat) = 8) := by decide
  simp only [if_neg h12, if_pos rfl]
  by_cases h : 12 ≤ s.length
  · have h4 : 4 ≤ s.length := by omega
    have h8 : 8 ≤ (s.drop 4).length := by
      simp only [List.length_drop]; omega
    rw [dif_pos h4, dif_pos h8, if_pos h]
    rw [← svAuxN_iter]
    cases hq : svAuxN (leVal (s.take 4)) (leVal ((s.drop 4).take 8)) ((s.drop 4).drop 8) with
    | none => simp
    | some q =>
      obtain ⟨r, hr⟩ := q
      simp
  · rw [if_neg h]
    by_cases h4 : 4 ≤ s.length
    · have h8 : ¬(8 ≤ (s.drop 4).length) := by
        simp only [List.length_drop]; omega
      rw [dif_pos h4, dif_neg h8]
      rfl
    · rw [dif_neg h4]
      rfl

theorem sv_scalar {t w : Nat} (h8 : t ≠ 8) (h12 : t ≠ 12) (hsz : sizes t = some w)
    (s : List Nat) : sv t s = some (s.drop w) := by
  rw [sv, svAux]
  rw [if_neg h8, if_neg h12, hsz]
  rfl

theorem sv_unk {t : Nat} (h8 : t ≠ 8) (h12 : t ≠ 12) (hsz : sizes t = none)
    (s : List Nat) : sv t s = some s := by
  rw [sv, svAux]
  rw [if_neg h8, if_neg h12, hsz]
  rfl

theorem u64bytes_length (v : Nat) : (u64bytes v).length = 8 := leBytes_length 8 v

theorem u32bytes_length (v : Nat) : (u32bytes v).length = 4 := leBytes_length 4 v

theorem leVal_u64 {v : Nat} (hv : v < 2 ^ 64) : leVal (u64bytes v) = v := by
  rw [u64bytes, leVal_leBytes]
  exact Nat.mod_eq_of_lt hv

theorem leVal_u32 {v : Nat} (hv : v < 2 ^ 32) : leVal (u32bytes v) = v := by
  rw [u32bytes, leVal_leBytes]
  exact Nat.mod_eq_of_lt hv

theorem take_len {p r : List Nat} {w : Nat} (h : p.length = w) : (p ++ r).take w = p := by
  rw [← h]
  exact List.take_left p r

theorem drop_len {p r : List Nat} {w : Nat} (h : p.length = w) : (p ++ r).drop w = r := by
  rw [← h]
  exact List.drop_left p r

/-- Well-formed wire values, used to build concrete metadata sections in
the theorems: a fixed-width scalar payload, a string payload, an array of
values of one element tag, or a zero-byte value of an unrecognized tag. -/
inductive GVal : Type where
  | fixedV (t : Nat) (b : List Nat) : GVal
  | strV (b : List Nat) : GVal
  | arrV (et : Nat) (elems : List GVal) : GVal
  | unkV (t : Nat) : GVal

/-- The type tag a `GVal` is encoded under. -/
def tagOf : GVal → Nat
  | .fixedV t _ => t
  | .strV _ => 8
  | .arrV _ _ => 12
  | .unkV t => t

mutual

/-- Well-formedness: payload widths match the tag's entry in `sizes`,
lengths and tags fit in their wire integers, and array elements all carry
the declared element tag. -/
def wfV : GVal → Prop
  | .fixedV t b => sizes t = some b.length
  | .strV b => b.length < 2 ^ 64
  | .arrV et elems => et < 2 ^ 32 ∧ elems.length < 2 ^ 64 ∧ wfL et elems
  | .unkV t => sizes t = none ∧ t ≠ 8 ∧ t ≠ 12

/-- Well-formedness of an array's element list under element tag `et`. -/
def wfL : Nat → List GVal → Prop
  | _, [] => True
  | et, e :: es => tagOf e = et ∧ wfV e ∧ wfL et es

end

mutual

/-- Wire encoding of a value: scalar payload bytes; 8-byte length plus
payload for strings; 4-byte element tag, 8-byte count, then the encoded
elements for arrays; nothing for unrecognized tags. -/
def encVal : GVal → List Nat
  | .fixedV _ b => b
  | .strV b => u64bytes b.length ++ b
  | .arrV et elems => u32bytes et ++ u64bytes elems.length ++ encL elems
  | .unkV _ => []

/-- Concatenated wire encoding of an element list. -/
def encL : List GVal → List Nat
  | [] => []
  | e :: es => encVal e ++ encL es

end

mutual

/-- The skipper consumes exactly the encoding of any well-formed value:
`sv` applied at the value's tag maps `encVal v ++ rest` to `rest`. -/
theorem sv_encVal (v : GVal) (hw : wfV v) (rest : List Nat) :
    sv (tagOf v) (encVal v ++ rest) = some rest := by
  match v with
  | .fixedV t b =>
    have hsz : sizes t = some b.length := hw
    have h8 : t ≠ 8 := by intro h; rw [h] at hsz; exact Option.noConfusion hsz
    have h12 : t ≠ 12 := by intro h; rw [h] at hsz; exact Option.noConfusion hsz
    rw [tagOf, encVal, sv_scalar h8 h12 hsz, drop_len rfl]
  | .strV b =>
    have hb : b.length < 2 ^ 64 := hw
    rw [tagOf, encVal, List.append_assoc, sv_str]
    have hlen : 8 ≤ (u64bytes b.length ++ (b ++ rest)).length := by
      simp [List.length_append, u64bytes_length]
    rw [if_pos hlen, take_len (u64bytes_length _), drop_len (u64bytes_length _)]
    rw [leVal_u64 hb, drop_len rfl]
  | .arrV et elems =>
    obtain ⟨het, hn, hL⟩ := hw
    rw [tagOf, encVal, List.append_assoc, List.append_assoc, sv_arr]
    have hlen : 12 ≤ (u32bytes et ++ (u64bytes elems.length ++ (encL elems ++ rest))).length := by
      simp only [List.length_append, u32bytes_length, u64bytes_length]
      omega
    rw [if_pos hlen, take_len (u32bytes_length _), drop_len (u32bytes_length _)]
    rw [take_len (u64bytes_length _), drop_len (u64bytes_length _)]
    rw [leVal_u32 het, leVal_u64 hn]
    exact svIter_encL et elems hL rest
  | .unkV t =>
    obtain ⟨hsz, h8, h12⟩ := hw
    rw [tagOf, encVal, List.nil_append, sv_unk h8 h12 hsz]

/-- Iterating the skipper over an encoded element list consumes exactly the
whole encoding. -/
theorem svIter_encL (et : Nat) (es : List GVal) (hw : wfL et es) (rest : List Nat) :
    svIter et es.length (encL es ++ rest) = some rest := by
  match es with
  | [] => rw [encL, List.nil_append]; rfl
  | e :: es =>
    obtain ⟨htag, hv, hL⟩ := hw
    have hstep : sv et (encVal e ++ (encL es ++ rest)) = some (encL es ++ rest) :=
      htag ▸ sv_encVal e hv (encL es ++ rest)
    rw [encL, List.length_cons, List.append_assoc, svIter, hstep]
    exact svIter_encL et es hL rest

end

/-- Wire encoding of one metadata entry: 8-byte key length, key bytes,
4-byte type tag, then the value's encoding. -/
def encEntry (key : List Nat) (t : Nat) (v : GVal) : List Nat :=
  u64bytes key.length ++ key ++ u32bytes t ++ encVal v

/-- Wire encoding of a whole metadata entry list. -/
def encEntries : List (List Nat × Nat × GVal) → List Nat
  | [] => []
  | (k, t, v) :: es => encEntry k t v ++ encEntries es

/-- The blocks the walker appends for one entry: one block when the value
is a string and the decoded key matches the predicate, none otherwise. -/
def entryOut (k : List Nat) (v : GVal) : List (List Nat) :=
  match v with
  | .strV b =>
    if pred (utf8DecodeReplace k) then
      [block (utf8DecodeReplace k) (utf8DecodeReplace b)]
    else []
  | _ => []

/-- All blocks the walker appends across an entry list, in file order. -/
def outsOf : List (List Nat × Nat × GVal) → List (List Nat)
  | [] => []
  | (k, _, v) :: es => entryOut k v ++ outsOf es

/-- Well-formedness of an encoded entry: key length and tag fit their wire
integers, the declared tag is the value's tag, and the value is
well-formed. -/
def wfE (e : List Nat × Nat × GVal) : Prop :=
  e.1.length < 2 ^ 64 ∧ e.2.1 < 2 ^ 32 ∧ tagOf e.2.2 = e.2.1 ∧ wfV e.2.2

theorem readU64_any {p : List Nat} (hp : p.length = 8) (r : List Nat) :
    readU64 (p ++ r) = some (leVal p, r) := by
  rw [readU64, if_pos (by simp [List.length_append, hp]), take_len hp, drop_len hp]

theorem rs_enc {key : List Nat} (hk : key.length < 2 ^ 64) (r : List Nat) :
    rs (u64bytes key.length ++ key ++ r) = some (utf8DecodeReplace key, r) := by
  rw [rs, List.append_assoc, readU64_enc key.length hk (key ++ r)]
  show some (utf8DecodeReplace ((key ++ r).take key.length), (key ++ r).drop key.length) =
    some (utf8DecodeReplace key, r)
  rw [take_len rfl, drop_len rfl]

theorem walkEntries_str (key b rest : List Nat) (acc : List (List Nat)) (m : Nat)
    (hk : key.length < 2 ^ 64) (hb : b.length < 2 ^ 64) :
    walkEntries (m + 1) (encEntry key 8 (.strV b) ++ rest) acc =
      walkEntries m rest
        (if pred (utf8DecodeReplace key) then
          acc ++ [block (utf8DecodeReplace key) (utf8DecodeReplace b)]
        else acc) := by
  rw [encEntry, encVal]
  rw [show u64bytes key.length ++ key ++ u32bytes 8 ++ (u64bytes b.length ++ b) ++ rest =
      u64bytes key.length ++ key ++
        (u32bytes 8 ++ (u64bytes b.length ++ (b ++ rest))) from by
    simp [List.append_assoc]]
  rw [walkEntries]
  simp only [rs_enc hk, readU32_enc 8 (by norm_num), readU64_enc b.length hb,
    take_len rfl, drop_len rfl, if_pos rfl]
  by_cases hp : pred (utf8DecodeReplace key)
  · simp [hp]
  · simp [hp]

theorem walkEntries_skip (key rest : List Nat) (acc : List (List Nat)) (m t : Nat)
    (v : GVal) (hk : key.length < 2 ^ 64) (ht : t < 2 ^ 32) (htag : tagOf v = t)
    (h8 : t ≠ 8) (hv : wfV v) :
    walkEntries (m + 1) (encEntry key t v ++ rest) acc = walkEntries m rest acc := by
  rw [encEntry]
  rw [show u64bytes key.length ++ key ++ u32bytes t ++ encVal v ++ rest =
      u64bytes key.length ++ key ++ (u32bytes t ++ (encVal v ++ rest)) from by
    simp [List.append_assoc]]
  rw [walkEntries]
  simp only [rs_enc hk, readU32_enc t ht, if_neg h8, htag ▸ sv_encVal v hv rest]

theorem tagOf_eight {v : GVal} (htag : tagOf v = 8) (hv : wfV v) :
    ∃ b, v = .strV b := by
  match v with
  | .strV b => exact ⟨b, rfl⟩
  | .fixedV t b =>
    rw [tagOf] at htag
    rw [htag] at hv
    exact Option.noConfusion hv
  | .arrV et elems => rw [tagOf] at htag; omega
  | .unkV t =>
    rw [tagOf] at htag
    obtain ⟨-, hne, -⟩ := hv
    exact absurd htag hne

theorem entryOut_nonstr {k : List Nat} {v : GVal} (h : tagOf v ≠ 8) :
    entryOut k v = [] := by
  match v with
  | .strV b => rw [tagOf] at h; omega
  | .fixedV t b => rfl
  | .arrV et elems => rfl
  | .unkV t => rfl

theorem walkEntries_enc (es : List (List Nat × Nat × GVal)) (junk : List Nat)
    (acc : List (List Nat)) (hw : ∀ e ∈ es, wfE e) :
    walkEntries es.length (encEntries es ++ junk) acc = some (acc ++ outsOf es, junk) := by
  induction es generalizing acc with
  | nil => simp [encEntries, outsOf, walkEntries]
  | cons e es ih =>
    obtain ⟨k, t, v⟩ := e
    obtain ⟨hk, ht, htag, hv⟩ := hw _ (List.mem_cons_self _ _)
    have hw' : ∀ e ∈ es, wfE e := fun e he => hw e (List.mem_cons_of_mem _ he)
    rw [encEntries, List.length_cons, List.append_assoc]
    by_cases h8 : t = 8
    · obtain ⟨b, rfl⟩ := tagOf_eight (h8 ▸ htag) hv
      rw [h8, walkEntries_str k b (encEntries es ++ junk) acc es.length hk hv]
      rw [ih _ hw']
      rw [outsOf, entryOut]
      by_cases hp : pred (utf8DecodeReplace k)
      · rw [if_pos hp, if_pos hp, List.append_assoc]
      · rw [if_neg hp, if_neg hp]
        simp
    · rw [walkEntries_skip k (encEntries es ++ junk) acc es.length t v hk ht htag h8 hv]
      rw [ih _ hw']
      rw [outsOf, entryOut_nonstr (htag ▸ h8)]
      simp

theorem sizes_none_of_gt {t : Nat} (h : 12 < t) : sizes t = none := by
  match t, h with
  | n + 13, _ => rfl

theorem walker_enc (pre : List Nat) (tc : Nat) (es : List (List Nat × Nat × GVal))
    (junk : List Nat) (hpre : pre.length = 8) (hn : es.length < 2 ^ 64)
    (hw : ∀ e ∈ es, wfE e) :
    walker (pre ++ u64bytes tc ++ u64bytes es.length ++ (encEntries es ++ junk)) =
      some (outsOf es, junk) := by
  rw [walker]
  have hdd : ∀ l : List Nat, (l.drop 4).drop 4 = l.drop 8 := by
    intro l; simp [List.drop_drop]
  rw [hdd]
  rw [show pre ++ u64bytes tc ++ u64bytes es.length ++ (encEntries es ++ junk) =
      pre ++ (u64bytes tc ++ (u64bytes es.length ++ (encEntries es ++ junk))) from by
    simp [List.append_assoc]]
  rw [drop_len hpre, readU64_any (u64bytes_length tc)]
  show (match readU64 (u64bytes es.length ++ (encEntries es ++ junk)) with
    | none => none
    | some (nk, s3) => walkEntries nk s3 []) = some (outsOf es, junk)
  rw [readU64_enc es.length hn]
  show walkEntries es.length (encEntries es ++ junk) [] = some (outsOf es, junk)
  rw [walkEntries_enc es junk [] hw, List.nil_append]

/-- C2: the skip routine `sv` treats numeric tag 12 (not tag 9) as the
recursively-typed array container, and treats tag 9 as a fixed-width scalar
consuming exactly 8 bytes: on every stream, tag 9 drops exactly 8 bytes and
succeeds, while tag 12 reads a 12-byte array header (failing on shorter
streams) and then iterates `sv` over the encoded count of elements. -/
theorem claim2 :
    (∀ s : List Nat, sv 9 s = some (s.drop 8)) ∧
    (∀ s : List Nat, s.length < 12 → sv 12 s = none) ∧
    (∀ et n : Nat, et < 2 ^ 32 → n < 2 ^ 64 → ∀ s : List Nat,
      sv 12 (u32bytes et ++ (u64bytes n ++ s)) = svIter et n s) := by
  refine ⟨?_, ?_, ?_⟩
  · intro s
    exact sv_scalar (by decide) (by decide) (show sizes 9 = some 8 from rfl) s
  · intro s h
    rw [sv_arr, if_neg (by omega)]
  · intro et n het hn s
    rw [sv_arr, if_pos (by
      simp only [List.length_append, u32bytes_length, u64bytes_length]; omega)]
    rw [take_len (u32bytes_length _), drop_len (u32bytes_length _)]
    rw [take_len (u64bytes_length _), drop_len (u64bytes_length _)]
    rw [leVal_u32 het, leVal_u64 hn]

/-- Witness for C2 at a concrete input: tag 9 on a 10-byte stream drops
exactly 8 bytes, and tag 12 on an encoded array header iterates the element
skip. -/
theorem claim2_witness :
    sv 9 [0, 1, 2, 3, 4, 5, 6, 7, 8, 9] = some ([0, 1, 2, 3, 4, 5, 6, 7, 8, 9].drop 8) ∧
    sv 12 (u32bytes 0 ++ (u64bytes 2 ++ [5, 6, 7])) = svIter 0 2 [5, 6, 7] :=
  ⟨claim2.1 [0, 1, 2, 3, 4, 5, 6, 7, 8, 9],
   claim2.2.2 0 2 (by decide) (by decide) [5, 6, 7]⟩

/-- C3: on the array tag, `sv` first consumes a 4-byte element-type tag,
then an 8-byte element count `n`, then invokes itself exactly `n` times
with that element type (`svIter`), for every `n ≥ 0`; and for every
well-formed encoded array — including arrays whose element tag is again
the array tag, at any nesting depth — it consumes exactly the whole
encoding. -/
theorem claim3 :
    (∀ et n : Nat, et < 2 ^ 32 → n < 2 ^ 64 → ∀ s : List Nat,
      sv 12 (u32bytes et ++ (u64bytes n ++ s)) = svIter et n s) ∧
    (∀ (et : Nat) (elems : List GVal) (rest : List Nat), wfV (.arrV et elems) →
      sv 12 (encVal (.arrV et elems) ++ rest) = some rest) := by
  constructor
  · intro et n het hn s
    rw [sv_arr, if_pos (by
      simp only [List.length_append, u32bytes_length, u64bytes_length]; omega)]
    rw [take_len (u32bytes_length _), drop_len (u32bytes_length _)]
    rw [take_len (u64bytes_length _), drop_len (u64bytes_length _)]
    rw [leVal_u32 het, leVal_u64 hn]
  · intro et elems rest hw
    exact sv_encVal (.arrV et elems) hw rest

/-- Witness for C3: a five-deep nested array (arrays of arrays down to a
one-byte scalar) is skipped in full, leaving exactly the trailing byte. -/
theorem claim3_witness :
    sv 12 (encVal (.arrV 12 [.arrV 12 [.arrV 12 [.arrV 12 [.arrV 0 [.fixedV 0 [7]]]]]]) ++ [9]) =
      some [9] :=
  claim3.2 12 [.arrV 12 [.arrV 12 [.arrV 12 [.arrV 0 [.fixedV 0 [7]]]]]] [9]
    (by refine ⟨by norm_num, by norm_num, ?_⟩
        refine ⟨rfl, ⟨by norm_num, by norm_num, ?_⟩, trivial⟩
        refine ⟨rfl, ⟨by norm_num, by norm_num, ?_⟩, trivial⟩
        refine ⟨rfl, ⟨by norm_num, by norm_num, ?_⟩, trivial⟩
        refine ⟨rfl, ⟨by norm_num, by norm_num, ?_⟩, trivial⟩
        exact ⟨rfl, rfl, trivial⟩)

/-- C4: for every fixed-width scalar tag, `sv` advances the cursor by
exactly the documented width — 1 byte for tags 0, 1, 7; 2 bytes for tags
2, 3; 4 bytes for tags 4, 5, 6; 8 bytes for tags 10, 11 — performing no
recursion (the result is a plain drop), and when the stream holds at least
that many bytes the consumed count is exactly the width. -/
theorem claim4 (s : List Nat) :
    (sv 0 s = some (s.drop 1)) ∧ (sv 1 s = some (s.drop 1)) ∧ (sv 7 s = some (s.drop 1)) ∧
    (sv 2 s = some (s.drop 2)) ∧ (sv 3 s = some (s.drop 2)) ∧
    (sv 4 s = some (s.drop 4)) ∧ (sv 5 s = some (s.drop 4)) ∧ (sv 6 s = some (s.drop 4)) ∧
    (sv 10 s = some (s.drop 8)) ∧ (sv 11 s = some (s.drop 8)) ∧
    (∀ w : Nat, w ≤ s.length → (s.drop w).length + w = s.length) := by
  refine ⟨?_, ?_, ?_, ?_, ?_, ?_, ?_, ?_, ?_, ?_, ?_⟩
  · exact sv_scalar (by decide) (by decide) (show sizes 0 = some 1 from rfl) s
  · exact sv_scalar (by decide) (by decide) (show sizes 1 = some 1 from rfl) s
  · exact sv_scalar (by decide) (by decide) (show sizes 7 = some 1 from rfl) s
  · exact sv_scalar (by decide) (by decide) (show sizes 2 = some 2 from rfl) s
  · exact sv_scalar (by decide) (by decide) (show sizes 3 = some 2 from rfl) s
  · exact sv_scalar (by decide) (by decide) (show sizes 4 = some 4 from rfl) s
  · exact sv_scalar (by decide) (by decide) (show sizes 5 = some 4 from rfl) s
  · exact sv_scalar (by decide) (by decide) (show sizes 6 = some 4 from rfl) s
  · exact sv_scalar (by decide) (by decide) (show sizes 10 = some 8 from rfl) s
  · exact sv_scalar (by decide) (by decide) (show sizes 11 = some 8 from rfl) s
  · intro w hw
    simp only [List.length_drop]
    omega

/-- Witness for C4 at a concrete stream of 8 bytes: tag 0 drops one byte
and the one-byte drop consumes exactly one byte. -/
theorem claim4_witness :
    sv 0 [0, 1, 2, 3, 4, 5, 6, 7] = some ([0, 1, 2, 3, 4, 5, 6, 7].drop 1) ∧
    (([0, 1, 2, 3, 4, 5, 6, 7].drop 8).length + 8 = [0, 1, 2, 3, 4, 5, 6, 7].length) :=
  ⟨(claim4 [0, 1, 2, 3, 4, 5, 6, 7]).1,
   (claim4 [0, 1, 2, 3, 4, 5, 6, 7]).2.2.2.2.2.2.2.2.2.2 8 (by decide)⟩

/-- C5: `rs` — and the string-tag branch of `sv` — consumes an 8-byte
little-endian length `L` followed by exactly `L` raw bytes, a total of
exactly `8 + L` bytes for any `L ≥ 0` and for any payload bytes whatever
(so malformed UTF-8 never aborts and the cursor advance does not depend on
decode success); decoding is lossy UTF-8, turning an invalid byte into the
U+FFFD replacement character. -/
theorem claim5 :
    (∀ b rest : List Nat, b.length < 2 ^ 64 →
      rs (u64bytes b.length ++ b ++ rest) = some (utf8DecodeReplace b, rest)) ∧
    (∀ b rest : List Nat, b.length < 2 ^ 64 →
      sv 8 (u64bytes b.length ++ b ++ rest) = some rest) ∧
    utf8DecodeReplace [65, 255, 66] = [65, 0xFFFD, 66] := by
  refine ⟨?_, ?_, by decide⟩
  · intro b rest hb
    exact rs_enc hb rest
  · intro b rest hb
    have := sv_encVal (.strV b) hb rest
    rw [tagOf, encVal] at this
    rw [List.append_assoc] at this ⊢
    exact this

/-- Witness for C5: a string whose single payload byte 255 is invalid
UTF-8 is read without error, consumes exactly 8 + 1 bytes, and decodes to
the replacement character. -/
theorem claim5_witness :
    rs (u64bytes [(255 : Nat)].length ++ [255] ++ [3, 4]) =
      some (utf8DecodeReplace [255], [3, 4]) ∧
    utf8DecodeReplace [255] = [0xFFFD] :=
  ⟨claim5.1 [255] [3, 4] (by decide), by decide⟩

/-- C7: for every tag that is neither a key of the fixed-width table
(0-7, 9, 10, 11) nor the string tag 8 nor the array tag 12 — that is, any
tag 13 or larger — `sv` consumes exactly zero bytes and raises no error:
it returns the stream unchanged. -/
theorem claim7 (t : Nat) (h : 12 < t) (s : List Nat) : sv t s = some s :=
  sv_unk (by omega) (by omega) (sizes_none_of_gt h) s

/-- Witness for C7: tag 13 on a three-byte stream is a zero-byte no-op. -/
theorem claim7_witness : sv 13 [1, 2, 3] = some [1, 2, 3] :=
  claim7 13 (by decide) [1, 2, 3]

/-- C1: for every metadata entry processed by the walker, a block is
appended to the result accumulator if and only if the entry's tag is the
string tag 8 and the decoded key contains the `chat_template` marker or
the `tokenizer.ggml.model` marker (`pred`); the appended block is exactly
`'[' + key + ']' + '\n' + value` with the value decoded lossily.  Part one
covers string-tagged entries (block appended exactly when the key
matches); part two covers every other tag (nothing is ever appended). -/
theorem claim1 (key b rest : List Nat) (acc : List (List Nat)) (m : Nat)
    (hk : key.length < 2 ^ 64) (hb : b.length < 2 ^ 64) :
    (walkEntries (m + 1) (encEntry key 8 (.strV b) ++ rest) acc =
      walkEntries m rest
        (acc ++
          if pred (utf8DecodeReplace key) then
            [block (utf8DecodeReplace key) (utf8DecodeReplace b)]
          else [])) ∧
    (∀ (t : Nat) (v : GVal), t ≠ 8 → t < 2 ^ 32 → tagOf v = t → wfV v →
      walkEntries (m + 1) (encEntry key t v ++ rest) acc = walkEntries m rest acc) := by
  constructor
  · rw [walkEntries_str key b rest acc m hk hb]
    by_cases hp : pred (utf8DecodeReplace key)
    · rw [if_pos hp, if_pos hp]
    · rw [if_neg hp, if_neg hp, List.append_nil]
  · intro t v h8 ht htag hv
    exact walkEntries_skip key rest acc m t v hk ht htag h8 hv

/-- Witness for C1: a matching chat-template key appends exactly its
bracketed block, and a non-string entry (an 8-byte scalar of tag 9)
appends nothing. -/
theorem claim1_witness :
    (walkEntries 1 (encEntry (ascii "a.chat_template") 8 (.strV (ascii "x")) ++ []) [] =
      walkEntries 0 []
        ([] ++
          if pred (utf8DecodeReplace (ascii "a.chat_template")) then
            [block (utf8DecodeReplace (ascii "a.chat_template"))
              (utf8DecodeReplace (ascii "x"))]
          else [])) ∧
    (walkEntries 1 (encEntry (ascii "a.chat_template") 9
        (.fixedV 9 [0, 0, 0, 0, 0, 0, 0, 0]) ++ []) [] = walkEntries 0 [] []) :=
  ⟨(claim1 (ascii "a.chat_template") (ascii "x") [] [] 0 (by decide) (by decide)).1,
   (claim1 (ascii "a.chat_template") (ascii "x") [] [] 0 (by decide) (by decide)).2
     9 (.fixedV 9 [0, 0, 0, 0, 0, 0, 0, 0]) (by decide) (by decide) rfl rfl⟩

/-- C6 counterexample: the claim says every read past end-of-stream fails,
including the `L` raw bytes of a string body; but `rs` on a stream whose
8-byte length prefix declares `L = 5` with only one body byte present
succeeds (Python's `f.read` silently returns the short read), consuming
the stream to its end instead of raising. -/
theorem claim6_cex :
    rs (u64bytes 5 ++ [65]) = some ([65], []) ∧ (u64bytes 5 ++ [65]).length < 8 + 5 := by
  constructor
  · rfl
  · decide

/-- C6 amended: only the fixed-width integer reads performed through
`struct.unpack` (the 8-byte lengths and counts and the 4-byte tags) fail
fatally when fewer bytes remain, aborting the whole pass with no output
(`walker` returns `none` whenever its 24-byte header is truncated); the
`L` raw body bytes of a string and the fixed scalar skips are plain
`f.read` calls that silently return short and never fail. -/
theorem claim6 :
    (∀ s : List Nat, s.length < 8 → readU64 s = none) ∧
    (∀ s : List Nat, s.length < 4 → readU32 s = none) ∧
    (∀ s : List Nat, s.length < 8 → rs s = none) ∧
    (∀ s : List Nat, s.length < 24 → walker s = none) ∧
    (∀ L body : List Nat, L.length = 8 → body.length < leVal L →
      rs (L ++ body) = some (utf8DecodeReplace body, [])) := by
  have hU64 : ∀ s : List Nat, s.length < 8 → readU64 s = none := by
    intro s h
    rw [readU64, if_neg (by omega)]
  refine ⟨hU64, ?_, ?_, ?_, ?_⟩
  · intro s h
    rw [readU32, if_neg (by omega)]
  · intro s h
    rw [rs, hU64 s h]
  · intro s h
    rw [walker]
    have hdd : (s.drop 4).drop 4 = s.drop 8 := by simp [List.drop_drop]
    rw [hdd]
    by_cases h16 : 8 ≤ (s.drop 8).length
    · rw [readU64, if_pos h16]
      show (match readU64 ((s.drop 8).drop 8) with
        | none => none
        | some (nk, s3) => walkEntries nk s3 []) = none
      rw [hU64 _ (by simp only [List.length_drop]; omega)]
    · rw [readU64, if_neg h16]
  · intro L body hL hshort
    rw [rs, readU64_any hL]
    show some (utf8DecodeReplace (body.take (leVal L)), body.drop (leVal L)) =
      some (utf8DecodeReplace body, [])
    rw [List.take_of_length_le (by omega), List.drop_eq_nil_of_le (by omega)]

/-- Witness for C6 amended: a 20-byte stream (shorter than the 24-byte
header) aborts the walker with no output, and a truncated string body is
silently short-read to the end of the stream. -/
theorem claim6_witness :
    walker [0, 1, 2, 3, 4, 5, 6, 7, 8, 9, 10, 11, 12, 13, 14, 15, 16, 17, 18, 19] = none ∧
    rs (u64bytes 5 ++ [65]) = some (utf8DecodeReplace [65], []) :=
  ⟨claim6.2.2.2.1 [0, 1, 2, 3, 4, 5, 6, 7, 8, 9, 10, 11, 12, 13, 14, 15, 16, 17, 18, 19]
      (by decide),
   claim6.2.2.2.2 (u64bytes 5) [65] (by decide) (by decide)⟩

/-- C8: the walker consumes exactly 24 bytes before the first metadata
entry — 8 preamble bytes taken without validation (any `pre` of length 8),
an 8-byte discarded count (any `tc`), and the 8-byte entry count — then
processes exactly that many entries and stops: the bytes after the last
entry (`junk`) are returned unread, whatever they are. -/
theorem claim8 (pre : List Nat) (tc : Nat) (es : List (List Nat × Nat × GVal))
    (junk : List Nat) (hpre : pre.length = 8) (hn : es.length < 2 ^ 64)
    (hw : ∀ e ∈ es, wfE e) :
    walker (pre ++ u64bytes tc ++ u64bytes es.length ++ (encEntries es ++ junk)) =
      some (outsOf es, junk) :=
  walker_enc pre tc es junk hpre hn hw

/-- Witness for C8: the spec's concrete scenario — three string entries of
which the first and third match — processed after an arbitrary preamble and
a discarded count, leaving two trailing junk bytes unread. -/
theorem claim8_witness :
    walker (List.replicate 8 0 ++ u64bytes 291 ++
        u64bytes ([(ascii "tokenizer.ggml.model", 8, GVal.strV (ascii "gpt2")),
          (ascii "general.architecture", 8, GVal.strV (ascii "qwen3")),
          (ascii "some.chat_template", 8, GVal.strV (ascii "tmpl"))] :
            List (List Nat × Nat × GVal)).length ++
        (encEntries [(ascii "tokenizer.ggml.model", 8, GVal.strV (ascii "gpt2")),
          (ascii "general.architecture", 8, GVal.strV (ascii "qwen3")),
          (ascii "some.chat_template", 8, GVal.strV (ascii "tmpl"))] ++ [7, 7])) =
      some (outsOf [(ascii "tokenizer.ggml.model", 8, GVal.strV (ascii "gpt2")),
        (ascii "general.architecture", 8, GVal.strV (ascii "qwen3")),
        (ascii "some.chat_template", 8, GVal.strV (ascii "tmpl"))], [7, 7]) :=
  claim8 (List.replicate 8 0) 291
    [(ascii "tokenizer.ggml.model", 8, GVal.strV (ascii "gpt2")),
      (ascii "general.architecture", 8, GVal.strV (ascii "qwen3")),
      (ascii "some.chat_template", 8, GVal.strV (ascii "tmpl"))] [7, 7]
    (by decide) (by decide)
    (by
      intro e he
      simp only [List.mem_cons, List.not_mem_nil, or_false] at he
      rcases he with rfl | rfl | rfl
      · exact ⟨by decide, by decide, rfl, by simp only [wfV]; decide⟩
      · exact ⟨by decide, by decide, rfl, by simp only [wfV]; decide⟩
      · exact ⟨by decide, by decide, rfl, by simp only [wfV]; decide⟩)

/-- C9: for a string-tagged entry whose key does not satisfy the selection
predicate, the walker consumes exactly the value's `8 + L` bytes — the
cursor ends exactly at `rest` — while the accumulator is left unchanged;
and for every non-string tag the skip likewise leaves the accumulator
unchanged (only the matched-string branch ever appends). -/
theorem claim9 (key b rest : List Nat) (acc : List (List Nat)) (m : Nat)
    (hk : key.length < 2 ^ 64) (hb : b.length < 2 ^ 64)
    (hp : pred (utf8DecodeReplace key) = false) :
    (walkEntries (m + 1) (encEntry key 8 (.strV b) ++ rest) acc =
      walkEntries m rest acc) ∧
    (∀ (t : Nat) (v : GVal), t ≠ 8 → t < 2 ^ 32 → tagOf v = t → wfV v →
      walkEntries (m + 1) (encEntry key t v ++ rest) acc = walkEntries m rest acc) := by
  constructor
  · rw [walkEntries_str key b rest acc m hk hb, if_neg (by simp [hp])]
  · intro t v h8 ht htag hv
    exact walkEntries_skip key rest acc m t v hk ht htag h8 hv

/-- Witness for C9: a non-matching key with a string value leaves the
accumulator untouched, and so does a tag-9 scalar entry. -/
theorem claim9_witness :
    (walkEntries 1 (encEntry (ascii "general.architecture") 8 (.strV (ascii "qwen3")) ++ [1]) [] =
      walkEntries 0 [1] []) ∧
    (walkEntries 1 (encEntry (ascii "general.architecture") 9
        (.fixedV 9 [0, 0, 0, 0, 0, 0, 0, 0]) ++ [1]) [] = walkEntries 0 [1] []) :=
  ⟨(claim9 (ascii "general.architecture") (ascii "qwen3") [1] [] 0
      (by decide) (by decide) (by decide)).1,
   (claim9 (ascii "general.architecture") (ascii "qwen3") [1] [] 0
      (by decide) (by decide) (by decide)).2
     9 (.fixedV 9 [0, 0, 0, 0, 0, 0, 0, 0]) (by decide) (by decide) rfl rfl⟩

mutual

/-- Depth-fuel-indexed version of `sv`: the fuel decreases only when
recursing into array elements, so `svFuel f` computes `sv` whenever the
nesting depth of the input is below `f`; the outer `none` signals fuel
exhaustion, `some r` delivers the result `sv` would produce. -/
def svFuel : Nat → Nat → List Nat → Option (Option (List Nat))
  | 0, _, _ => none
  | fuel + 1, t, s =>
    if t = 8 then
      some (if 8 ≤ s.length then some ((s.drop 8).drop (leVal (s.take 8))) else none)
    else if t = 12 then
      if 4 ≤ s.length then
        if 8 ≤ (s.drop 4).length then
          svFuelN fuel (leVal (s.take 4)) (leVal ((s.drop 4).take 8)) ((s.drop 4).drop 8)
        else some none
      else some none
    else
      match sizes t with
      | some w => some (some (s.drop w))
      | none => some (some s)
termination_by fuel _ _ => (fuel, 0)
decreasing_by
  simp_wf
  apply Prod.Lex.left
  omega

/-- Fuel-indexed element loop of the array branch. -/
def svFuelN : Nat → Nat → Nat → List Nat → Option (Option (List Nat))
  | _, _, 0, s => some (some s)
  | fuel, et, m + 1, s =>
    match svFuel fuel et s with
    | none => none
    | some none => some none
    | some (some s1) => svFuelN fuel et m s1
termination_by fuel _ m _ => (fuel, m + 1)
decreasing_by
  · simp_wf
    apply Prod.Lex.right
    omega
  · simp_wf
    apply Prod.Lex.right
    omega

end

theorem svFuelN_sound (f : Nat)
    (ihf : ∀ (t : Nat) (s : List Nat), s.length < f → svFuel f t s = some (sv t s)) :
    ∀ (et m : Nat) (s : List Nat), s.length < f →
      svFuelN f et m s = some (svIter et m s) := by
  intro et m
  induction m with
  | zero =>
    intro s h
    rw [svFuelN, svIter]
  | succ m ih =>
    intro s h
    have h1 : svFuel f et s = some (sv et s) := ihf et s h
    cases hsv : sv et s with
    | none =>
      rw [svFuelN, h1, hsv, svIter, hsv]
    | some s1 =>
      have h2 := ih s1 (lt_of_le_of_lt (sv_len hsv) h)
      rw [svFuelN, h1, hsv, svIter, hsv]
      exact h2

theorem svFuel_sound :
    ∀ (f t : Nat) (s : List Nat), s.length < f → svFuel f t s = some (sv t s) := by
  intro f
  induction f with
  | zero =>
    intro t s h
    exact absurd h (Nat.not_lt_zero _)
  | succ f ih =>
    intro t s h
    by_cases h8 : t = 8
    · subst h8
      rw [svFuel, if_pos rfl, sv_str]
    · by_cases h12 : t = 12
      · subst h12
        rw [svFuel, if_neg (by decide), if_pos rfl, sv_arr]
        by_cases h4 : 4 ≤ s.length
        · by_cases hb : 8 ≤ (s.drop 4).length
          · have h12le : 12 ≤ s.length := by
              simp only [List.length_drop] at hb; omega
            rw [if_pos h4, if_pos hb, if_pos h12le]
            apply svFuelN_sound f ih
            simp only [List.length_drop]
            omega
          · have h12n : ¬12 ≤ s.length := by
              simp only [List.length_drop] at hb; omega
            rw [if_pos h4, if_neg hb, if_neg h12n]
        · rw [if_neg h4, if_neg (by omega)]
      · rw [svFuel, if_neg h8, if_neg h12]
        cases hsz : sizes t with
        | some w => rw [sv_scalar h8 h12 hsz]
        | none => rw [sv_unk h8 h12 hsz]

/-- C10: `sv` terminates on every finite input stream and every tag: in
the array branch 12 bytes are consumed before any recursive call, so the
remaining byte count strictly decreases across recursion levels, and
depth fuel `s.length + 1` always suffices — the fuel-indexed skipper never
exhausts its fuel and computes exactly what the well-founded `sv`
computes. -/
theorem claim10 (t : Nat) (s : List Nat) : svFuel (s.length + 1) t s = some (sv t s) :=
  svFuel_sound (s.length + 1) t s (by omega)

end GgufRead
